import Mathlib

/-!
Verification development for the design-patterns repository fragments that
implement caching:

* the TTL key-value store (CacheItem, SimpleRedisCache) from the adapter
  example file;
* the sequential memoization cache (Memory) from the observer example file;
* the in-flight deduplication service (Service.Work) from the cache2 file,
  embedded as a small-step interleaving semantics driven by an explicit
  schedule, so that concrete concurrent executions can be evaluated.

Go maps are modelled as association lists in which an update removes the
previous binding for the key, so the list length equals the number of keys,
exactly as the length of a Go map.  Wall-clock time is passed explicitly as an
integer number of nanoseconds, mirroring time.Now().UnixNano().
-/

set_option maxRecDepth 4000

/-- Association list lookup, modelling a Go map read together with its
found flag: some when the key is present, none when absent. -/
def alistFind {κ β : Type} [DecidableEq κ] : List (κ × β) → κ → Option β
  | [], _ => none
  | (a, b) :: rest, k => if a = k then some b else alistFind rest k

/-- Association list lookup with a default, modelling a Go map read that
yields the zero value when the key is absent. -/
def alistGetD {κ β : Type} [DecidableEq κ] (l : List (κ × β)) (k : κ) (d : β) : β :=
  (alistFind l k).getD d

/-- Association list update, modelling Go map assignment: the new binding
replaces any previous binding for the same key. -/
def alistInsert {κ β : Type} [DecidableEq κ] (l : List (κ × β)) (k : κ) (b : β) :
    List (κ × β) :=
  (k, b) :: l.filter (fun p => decide (p.1 ≠ k))

/-- Association list removal, modelling the Go builtin delete. -/
def alistErase {κ β : Type} [DecidableEq κ] (l : List (κ × β)) (k : κ) : List (κ × β) :=
  l.filter (fun p => decide (p.1 ≠ k))

/-!
Model of the TTL cache from the adapter example file: CacheItem with
IsExpired, and SimpleRedisCache with Set, Get, Delete, Exists and Size.
The sync.RWMutex only serializes access in Go and is not part of the
functional state; each operation is a function of the state and, where the
source consults time.Now(), of an explicit now parameter.
-/

/-- A cache element: the stored value plus the expiration timestamp in
nanoseconds; an Expiration of 0 means the element never expires. -/
structure CacheItem (α : Type) where
  Value : α
  Expiration : Int
deriving DecidableEq

/-- IsExpired from the source: an element whose Expiration is 0 never
expires; otherwise it is expired when the current time is strictly greater
than its Expiration. -/
def CacheItem.IsExpired {α : Type} (item : CacheItem α) (now : Int) : Bool :=
  if item.Expiration = 0 then false
  else decide (now > item.Expiration)

/-- The in-memory cache: a map from string keys to cache elements. -/
structure SimpleRedisCache (α : Type) where
  data : List (String × CacheItem α)
deriving DecidableEq

/-- NewSimpleRedisCache: a cache with an empty map. -/
def NewSimpleRedisCache {α : Type} : SimpleRedisCache α :=
  { data := [] }

/-- Set from the source: when ttl is strictly positive the expiration is
now plus ttl, otherwise the expiration stays at its zero value 0; the new
element overwrites any previous binding of the key. -/
def SimpleRedisCache.Set {α : Type} (c : SimpleRedisCache α) (key : String) (value : α)
    (ttl now : Int) : SimpleRedisCache α :=
  let expiration : Int := if ttl > 0 then now + ttl else 0
  { data := alistInsert c.data key { Value := value, Expiration := expiration } }

/-- Get from the source: returns the value and true when the key is present
and the element has not expired; otherwise returns none and false.  The
operation reads the state and never modifies it. -/
def SimpleRedisCache.Get {α : Type} (c : SimpleRedisCache α) (key : String) (now : Int) :
    Option α × Bool :=
  match alistFind c.data key with
  | none => (none, false)
  | some item =>
    if item.IsExpired now then (none, false)
    else (some item.Value, true)

/-- Delete from the source: when the key is present it is removed from the
map and true is returned; otherwise the state is unchanged and false is
returned.  No expiry check is made. -/
def SimpleRedisCache.Delete {α : Type} (c : SimpleRedisCache α) (key : String) :
    SimpleRedisCache α × Bool :=
  match alistFind c.data key with
  | some _ => ({ data := alistErase c.data key }, true)
  | none => (c, false)

/-- Exists from the source: false when the key is absent or the element has
expired, true otherwise. -/
def SimpleRedisCache.Exists {α : Type} (c : SimpleRedisCache α) (key : String) (now : Int) :
    Bool :=
  match alistFind c.data key with
  | none => false
  | some item => if item.IsExpired now then false else true

/-- Size from the source: the length of the internal map, with no expiry
check. -/
def SimpleRedisCache.Size {α : Type} (c : SimpleRedisCache α) : Nat :=
  c.data.length

/-- Modelled from the spec wording for Size, for comparison with the code:
the count of entries that are live, that is not expired, at the time of
call. -/
def specLiveSize {α : Type} (c : SimpleRedisCache α) (now : Int) : Nat :=
  (c.data.filter (fun p => !(p.2.IsExpired now))).length

/-!
Model of the sequential memoization cache from the observer example file:
CacheableFunction, CachedFunctionResult and Memory with Get.  Go errors are
modelled as Option values: none is the nil error.  Memory.Get additionally
reports, in its last component, whether the wrapped function was invoked
during the call; this instruments the call that the source performs in its
not-cached branch.
-/

/-- The type of functions that can be cached: from an integer key to a value
and an error. -/
abbrev CacheableFunction (α ε : Type) := Int → α × Option ε

/-- The stored result of a cached function: its value and its error. -/
structure CachedFunctionResult (α ε : Type) where
  value : α
  err : Option ε
deriving DecidableEq

/-- The memoization cache: the wrapped function and the map of stored
results. -/
structure Memory (α ε : Type) where
  f : CacheableFunction α ε
  cache : List (Int × CachedFunctionResult α ε)

/-- newMemory from the source: wraps a function with an empty cache. -/
def newMemory {α ε : Type} (f : CacheableFunction α ε) : Memory α ε :=
  { f := f, cache := [] }

/-- Get from the source: when the key is cached the stored value and error
are returned and the state is unchanged; otherwise the function is invoked,
its value and error are stored, and both are returned.  The final Bool
reports whether the function was invoked. -/
def Memory.Get {α ε : Type} (m : Memory α ε) (key : Int) :
    (α × Option ε) × Memory α ε × Bool :=
  match alistFind m.cache key with
  | some result => ((result.value, result.err), m, false)
  | none =>
    let r := m.f key
    ((r.1, r.2), { m with cache := alistInsert m.cache key { value := r.1, err := r.2 } }, true)

/-- A sequence of Get calls on a Memory: returns the final state and the
log of keys on which the wrapped function was invoked, in call order. -/
def Memory.run {α ε : Type} (m : Memory α ε) : List Int → Memory α ε × List Int
  | [] => (m, [])
  | k :: ks =>
    let step := m.Get k
    let rest := step.2.1.run ks
    (rest.1, (if step.2.2 then [k] else []) ++ rest.2)

/-!
Model of the in-flight deduplication service from the cache2 file.  Each
caller of Service.Work is a thread whose program counter walks through the
atomic actions of the source; every mutex-protected critical section of the
source is one atomic action, and the unlocked work (the expensive
computation, each individual channel send, the blocking receive) is its own
atomic action.  A schedule is a list of thread indices; running a schedule
executes one atomic action of the selected thread per entry, which lets a
concrete interleaving of concurrent Work calls be evaluated.  Channels are
modelled as one-shot mailboxes: a send records the sent value for the
channel, and the receiving thread can proceed once a value is recorded.
-/

/-- ExpensiveFibonacci from the source returns its argument after a sleep;
the sleep and the printing are irrelevant to the state and are dropped. -/
def ExpensiveFibonacci (n : Int) : Int :=
  n

/-- The program counter of one Work call.  start is the RLock-protected read
of InProgress; register is the Lock-protected append of the waiter channel;
waitRecv is the blocking channel receive; mark is the Lock-protected write
InProgress[job] = true; compute is the unlocked expensive call; readPending
is the RLock-protected snapshot of IsPending[job]; send holds the remaining
channels of the snapshot still to be sent to; reset is the Lock-protected
write of InProgress[job] = false and IsPending[job] = empty. -/
inductive WPhase where
  | start
  | register
  | waitRecv
  | mark
  | compute
  | readPending
  | send (ws : List Nat)
  | reset
  | done
deriving DecidableEq

/-- One caller of Work: its job argument, the identity of the channel it
would create as a waiter, the local result variable, and its program
counter. -/
structure WThread where
  job : Int
  ch : Nat
  result : Int
  phase : WPhase
deriving DecidableEq

/-- The shared state of the Service: the InProgress and IsPending maps of
the source, the mailboxes of the waiter channels, and the log of arguments
on which ExpensiveFibonacci has been invoked. -/
structure SvcState where
  InProgress : List (Int × Bool)
  IsPending : List (Int × List Nat)
  mailbox : List (Nat × Int)
  fibCalls : List Int
deriving DecidableEq

/-- One atomic action of one thread, following the source of Service.Work
line by line.  A thread at waitRecv with an empty mailbox is blocked and
does not change anything. -/
def stepW (s : SvcState) (t : WThread) : SvcState × WThread :=
  match t.phase with
  | WPhase.start =>
    if alistGetD s.InProgress t.job false then
      (s, { t with phase := WPhase.register })
    else
      (s, { t with phase := WPhase.mark })
  | WPhase.register =>
    let newPending := alistGetD s.IsPending t.job [] ++ [t.ch]
    ({ s with IsPending := alistInsert s.IsPending t.job newPending },
     { t with phase := WPhase.waitRecv })
  | WPhase.waitRecv =>
    match alistFind s.mailbox t.ch with
    | some v => (s, { t with result := v, phase := WPhase.done })
    | none => (s, t)
  | WPhase.mark =>
    ({ s with InProgress := alistInsert s.InProgress t.job true },
     { t with phase := WPhase.compute })
  | WPhase.compute =>
    ({ s with fibCalls := s.fibCalls ++ [t.job] },
     { t with result := ExpensiveFibonacci t.job, phase := WPhase.readPending })
  | WPhase.readPending =>
    match alistFind s.IsPending t.job with
    | some ws => (s, { t with phase := WPhase.send ws })
    | none => (s, { t with phase := WPhase.send [] })
  | WPhase.send [] => (s, { t with phase := WPhase.reset })
  | WPhase.send (c :: rest) =>
    ({ s with mailbox := alistInsert s.mailbox c t.result },
     { t with phase := WPhase.send rest })
  | WPhase.reset =>
    ({ s with InProgress := alistInsert s.InProgress t.job false,
              IsPending := alistInsert s.IsPending t.job [] },
     { t with phase := WPhase.done })
  | WPhase.done => (s, t)

/-- A configuration: the shared state and all threads. -/
structure Cfg where
  state : SvcState
  threads : List WThread
deriving DecidableEq

/-- Execute one atomic action of the thread at the given index; an index out
of range changes nothing. -/
def stepIdx (cfg : Cfg) (i : Nat) : Cfg :=
  match cfg.threads[i]? with
  | none => cfg
  | some t =>
    let r := stepW cfg.state t
    { state := r.1, threads := cfg.threads.set i r.2 }

/-- Run a schedule: execute the listed thread indices in order. -/
def runSched (cfg : Cfg) : List Nat → Cfg
  | [] => cfg
  | i :: is => runSched (stepIdx cfg i) is

/-- Two fresh concurrent callers of Work on job 5, neither yet started. -/
def c1init : Cfg :=
  { state := { InProgress := [], IsPending := [], mailbox := [], fibCalls := [] },
    threads := [{ job := 5, ch := 0, result := 0, phase := WPhase.start },
                { job := 5, ch := 1, result := 0, phase := WPhase.start }] }

/-- Two fresh concurrent callers of Work on job 8, neither yet started. -/
def c2init : Cfg :=
  { state := { InProgress := [], IsPending := [], mailbox := [], fibCalls := [] },
    threads := [{ job := 8, ch := 0, result := 0, phase := WPhase.start },
                { job := 8, ch := 1, result := 0, phase := WPhase.start }] }

/-!
Helper lemmas about association lists.
-/

theorem alistFind_insert_self {κ β : Type} [DecidableEq κ] (l : List (κ × β)) (k : κ)
    (b : β) : alistFind (alistInsert l k b) k = some b := by
  simp [alistInsert, alistFind]

theorem alistFind_filter_ne {κ β : Type} [DecidableEq κ] (l : List (κ × β)) (k j : κ)
    (h : j ≠ k) :
    alistFind (l.filter (fun p => decide (p.1 ≠ k))) j = alistFind l j := by
  induction l with
  | nil => rfl
  | cons a rest ih =>
    obtain ⟨a1, a2⟩ := a
    rw [List.filter_cons]
    by_cases hak : a1 = k
    · rw [if_neg (by simp [hak])]
      rw [ih]
      have haj : ¬(a1 = j) := by rw [hak]; exact fun hh => h hh.symm
      show alistFind rest j = if a1 = j then some a2 else alistFind rest j
      rw [if_neg haj]
    · rw [if_pos (by simp [hak])]
      show (if a1 = j then some a2 else alistFind (rest.filter (fun p => decide (p.1 ≠ k))) j)
          = if a1 = j then some a2 else alistFind rest j
      rw [ih]

theorem alistFind_insert_ne {κ β : Type} [DecidableEq κ] (l : List (κ × β)) (k j : κ)
    (b : β) (h : j ≠ k) :
    alistFind (alistInsert l k b) j = alistFind l j := by
  have hkj : ¬(k = j) := fun hh => h hh.symm
  simp only [alistInsert, alistFind, hkj, if_false]
  exact alistFind_filter_ne l k j h

theorem length_split_by {γ : Type} (p : γ → Bool) (l : List γ) :
    l.length = (l.filter (fun x => !(p x))).length + (l.filter p).length := by
  induction l with
  | nil => rfl
  | cons a t ih =>
    cases h : p a <;> simp [List.filter_cons, h, ih] <;> omega

/-!
Claim theorems about the TTL cache.
-/

/-- Claim C3: a cache element whose expiration field is 0 (never) is not
expired at any time; otherwise IsExpired reports expiry exactly when the
current time is strictly greater than the expiration timestamp. -/
theorem isExpired_spec {α : Type} (item : CacheItem α) (now : Int) :
    item.IsExpired now = true ↔ (item.Expiration ≠ 0 ∧ item.Expiration < now) := by
  by_cases h : item.Expiration = 0 <;>
    simp [CacheItem.IsExpired, h]

/-- Claim C5: Get returns the stored value together with true exactly when
the key is bound to an element that has not expired at the time of call, and
returns none with false in every other case.  Get is a pure reader of the
state by construction. -/
theorem get_found_iff {α : Type} (c : SimpleRedisCache α) (key : String) (now : Int) :
    ((c.Get key now).2 = true ↔
      ∃ item, alistFind c.data key = some item ∧ item.IsExpired now = false
        ∧ (c.Get key now).1 = some item.Value)
  ∧ ((c.Get key now).2 = false ↔ c.Get key now = ((none : Option α), false)) := by
  cases h : alistFind c.data key with
  | none => simp [SimpleRedisCache.Get, h]
  | some item =>
    cases he : item.IsExpired now <;>
      simp [SimpleRedisCache.Get, h, he]

/-- Claim C7: Exists agrees with the found flag of Get on every state, key
and time of call; both apply the same expiry check. -/
theorem exists_eq_get_found {α : Type} (c : SimpleRedisCache α) (key : String) (now : Int) :
    c.Exists key now = (c.Get key now).2 := by
  cases h : alistFind c.data key with
  | none => simp [SimpleRedisCache.Exists, SimpleRedisCache.Get, h]
  | some item =>
    cases he : item.IsExpired now <;>
      simp [SimpleRedisCache.Exists, SimpleRedisCache.Get, h, he]

/-- A fixed key used by the concrete cache states below. -/
def keyX : String := "x"

/-- A cache holding one element under keyX that expires at time 10. -/
def c4cache : SimpleRedisCache Int :=
  SimpleRedisCache.Set NewSimpleRedisCache keyX 1 10 0

/-- Claim C4, counterexample: at time 20 the single entry of c4cache has
expired and not been swept, the live count of the spec wording is 0, yet
Size still returns 1, so Size does not return the number of live entries. -/
theorem size_counts_expired_entry :
    c4cache.Size = 1 ∧ specLiveSize c4cache 20 = 0
      ∧ c4cache.Size ≠ specLiveSize c4cache 20 := by
  decide

/-- Claim C4, amended: Size returns the total number of entries currently in
the internal map, that is the number of live entries plus the number of
expired-but-not-yet-swept entries at the time of call. -/
theorem size_eq_live_add_expired {α : Type} (c : SimpleRedisCache α) (now : Int) :
    c.Size = specLiveSize c now + (c.data.filter (fun p => p.2.IsExpired now)).length := by
  have h := length_split_by (fun q : String × CacheItem α => q.2.IsExpired now) c.data
  simpa [SimpleRedisCache.Size, specLiveSize] using h

/-- Claim C9: a strictly negative ttl is handled by the same branch as
ttl = 0, so the installed element carries expiration 0 and is never reported
expired at any later time. -/
theorem set_negative_ttl_spec {α : Type} (c : SimpleRedisCache α) (key : String) (v : α)
    (ttl now t : Int) (h : ttl < 0) :
    c.Set key v ttl now = c.Set key v 0 now
  ∧ alistFind (c.Set key v ttl now).data key = some { Value := v, Expiration := 0 }
  ∧ CacheItem.IsExpired { Value := v, Expiration := 0 } t = false := by
  have h1 : ¬(ttl > 0) := by omega
  refine ⟨?_, ?_, ?_⟩
  · simp [SimpleRedisCache.Set, h1]
  · simp [SimpleRedisCache.Set, h1, alistFind_insert_self]
  · simp [CacheItem.IsExpired]

/-- A fixed key used by the witness below. -/
def keyA : String := "a"

/-- Witness for the negative ttl theorem at ttl equal to minus five. -/
theorem set_negative_ttl_witness :
    ((-5 : Int) < 0)
  ∧ (SimpleRedisCache.Set (NewSimpleRedisCache : SimpleRedisCache Int) keyA 7 (-5) 100
       = SimpleRedisCache.Set NewSimpleRedisCache keyA 7 0 100
     ∧ alistFind (SimpleRedisCache.Set (NewSimpleRedisCache : SimpleRedisCache Int)
         keyA 7 (-5) 100).data keyA = some { Value := 7, Expiration := 0 }
     ∧ CacheItem.IsExpired { Value := (7 : Int), Expiration := 0 } 1000 = false) :=
  ⟨by decide, set_negative_ttl_spec NewSimpleRedisCache keyA 7 (-5) 100 1000 (by decide)⟩

/-- A cache holding one element under keyX that expires at time 10, used to
show Delete succeeding on an expired entry. -/
def c10cache : SimpleRedisCache Int :=
  SimpleRedisCache.Set NewSimpleRedisCache keyX 1 10 0

/-- Claim C10: Delete reports true exactly when the key is bound in the
internal map, with no expiry check; on the concrete expired entry of
c10cache at time 20 Delete returns true while Get and Exists both report the
key as absent. -/
theorem delete_ignores_expiry {α : Type} (c : SimpleRedisCache α) (key : String) :
    ((c.Delete key).2 = (alistFind c.data key).isSome)
  ∧ ((c10cache.Delete keyX).2 = true
     ∧ (c10cache.Get keyX 20).2 = false
     ∧ c10cache.Exists keyX 20 = false) := by
  constructor
  · cases h : alistFind c.data key <;> simp [SimpleRedisCache.Delete, h]
  · decide

/-!
Claim theorems about the memoization cache.
-/

/-- Claim C6: when the wrapped function returns an error for a fresh key,
the error is stored exactly like a value, and a subsequent Get for the key
returns the memoized value and error pair without invoking the function
again and without changing the state. -/
theorem memory_get_caches_errors {α ε : Type} (m : Memory α ε) (key : Int) (v : α)
    (e : Option ε) (h1 : alistFind m.cache key = none) (h2 : m.f key = (v, e)) :
    (m.Get key).1 = (v, e)
  ∧ (m.Get key).2.2 = true
  ∧ alistFind ((m.Get key).2.1).cache key = some { value := v, err := e }
  ∧ ((m.Get key).2.1).Get key = ((v, e), (m.Get key).2.1, false) := by
  have hGet : m.Get key
      = ((v, e), { m with cache := alistInsert m.cache key { value := v, err := e } }, true) := by
    simp [Memory.Get, h1, h2]
  refine ⟨by rw [hGet], by rw [hGet], ?_, ?_⟩
  · rw [hGet]
    exact alistFind_insert_self m.cache key { value := v, err := e }
  · rw [hGet]
    simp [Memory.Get, alistFind_insert_self]

/-- The wrapped function of the witness memory: it returns an error for
every key. -/
def errFn : CacheableFunction Int Int := fun k => (k, some 7)

/-- The witness memory: errFn wrapped with an empty cache. -/
def m6 : Memory Int Int := newMemory errFn

/-- Witness for the error caching theorem at key 3. -/
theorem memory_get_caches_errors_witness :
    alistFind m6.cache 3 = none
  ∧ m6.f 3 = (3, some 7)
  ∧ ((m6.Get 3).1 = ((3 : Int), some (7 : Int))
     ∧ (m6.Get 3).2.2 = true
     ∧ alistFind ((m6.Get 3).2.1).cache 3 = some { value := 3, err := some 7 }
     ∧ ((m6.Get 3).2.1).Get 3 = (((3 : Int), some (7 : Int)), (m6.Get 3).2.1, false)) :=
  ⟨rfl, rfl, memory_get_caches_errors m6 3 3 (some 7) rfl rfl⟩

/-- Claim C8: over any sequence of Get calls the wrapped function is invoked
at most once per key, never on a key that is already cached; and the final
cache binds each key to its original entry when one existed, otherwise to
the result of the single invocation performed at the first Get of that key
inside the sequence, so every later Get returns exactly that pair. -/
theorem memory_at_most_once {α ε : Type} (m : Memory α ε) (ks : List Int) (key : Int) :
    ((m.run ks).2.count key ≤ if (alistFind m.cache key).isSome then 0 else 1)
  ∧ (alistFind ((m.run ks).1).cache key =
      match alistFind m.cache key with
      | some r => some r
      | none =>
        if key ∈ ks then some { value := (m.f key).1, err := (m.f key).2 } else none) := by
  induction ks generalizing m with
  | nil =>
    refine ⟨by simp [Memory.run], ?_⟩
    cases h : alistFind m.cache key <;> simp [Memory.run, h]
  | cons k ks ih =>
    cases hk : alistFind m.cache k with
    | some r =>
      have hGet : m.Get k = ((r.value, r.err), m, false) := by
        simp [Memory.Get, hk]
      have hrun : m.run (k :: ks) = m.run ks := by
        simp [Memory.run, hGet]
      obtain ⟨ih1, ih2⟩ := ih m
      rw [hrun]
      refine ⟨ih1, ?_⟩
      rw [ih2]
      cases hK : alistFind m.cache key with
      | some r2 => rfl
      | none =>
        have hne : ¬(key = k) := by
          intro hEq
          rw [hEq, hk] at hK
          cases hK
        simp [List.mem_cons, hne]
    | none =>
      have hGet : m.Get k
          = (((m.f k).1, (m.f k).2),
             { m with cache := alistInsert m.cache k { value := (m.f k).1, err := (m.f k).2 } },
             true) := by
        simp [Memory.Get, hk]
      have hrun : m.run (k :: ks)
          = (((m.Get k).2.1.run ks).1, [k] ++ ((m.Get k).2.1.run ks).2) := by
        simp [Memory.run, hGet]
      obtain ⟨ih1, ih2⟩ := ih (m.Get k).2.1
      have hf : ((m.Get k).2.1).f = m.f := by rw [hGet]
      have hcache : ((m.Get k).2.1).cache
          = alistInsert m.cache k { value := (m.f k).1, err := (m.f k).2 } := by rw [hGet]
      rw [hrun]
      by_cases hkey : key = k
      · subst hkey
        have hself : alistFind ((m.Get key).2.1).cache key
            = some { value := (m.f key).1, err := (m.f key).2 } := by
          rw [hcache]
          exact alistFind_insert_self _ _ _
        constructor
        · simp [hself] at ih1
          simp [hk, List.count_append, List.count_singleton, ih1]
        · rw [ih2, hself, hk]
          simp [List.mem_cons]
      · have hother : alistFind ((m.Get k).2.1).cache key = alistFind m.cache key := by
          rw [hcache]
          exact alistFind_insert_ne _ _ _ _ hkey
        constructor
        · rw [hother] at ih1
          have hzero : List.count key [k] = 0 := by
            simp [List.count_singleton]
            intro hEq
            exact hkey hEq.symm
          simp only [List.count_append, hzero]
          omega
        · rw [ih2, hother, hf]
          cases hK : alistFind m.cache key with
          | some r2 => rfl
          | none => simp [List.mem_cons, hkey]

/-!
Claim theorems about the in-flight deduplication service.
-/

/-- Claim C1: the at-most-once computation guarantee fails on the code.  In
the interleaving below, two concurrent Work(5) calls on a fresh service both
pass the RLock-protected InProgress check before either takes the write
lock, so both proceed to the compute path: the complete execution ends with
both threads done and with ExpensiveFibonacci invoked twice for the single
miss episode of job 5, refuting the claim that the compute function runs
exactly once. -/
theorem work_duplicate_compute :
    (runSched c1init [0, 1, 0, 1, 0, 1, 0, 0, 0, 1, 1, 1]).state.fibCalls = [5, 5]
  ∧ (runSched c1init [0, 1, 0, 1, 0, 1, 0, 0, 0, 1, 1, 1]).threads
      = [{ job := 5, ch := 0, result := 5, phase := WPhase.done },
         { job := 5, ch := 1, result := 5, phase := WPhase.done }] := by
  decide

/-- Claim C2: the no-lost-waiter guarantee fails on the code.  In the
interleaving below, the computing thread finishes ExpensiveFibonacci(8) and
takes its RLock-protected snapshot of the empty IsPending list; only then
does the second caller observe InProgress true and register its channel, so
it is registered while the computation is still in progress (the mid
configuration shows InProgress true and the channel recorded).  The computer
then resets the maps, wiping the registration: in the final configuration
the computer is done, the mailbox holds no delivery, the waiter is still
blocked at its receive, and no thread can take a step, so the waiter
registered before settlement never receives a delivery. -/
theorem work_lost_waiter :
    alistGetD (runSched c2init [0, 0, 0, 0, 1, 1]).state.InProgress 8 false = true
  ∧ alistFind (runSched c2init [0, 0, 0, 0, 1, 1]).state.IsPending 8 = some [1]
  ∧ (runSched c2init [0, 0, 0, 0, 1, 1, 0, 0, 1]).threads
      = [{ job := 8, ch := 0, result := 8, phase := WPhase.done },
         { job := 8, ch := 1, result := 0, phase := WPhase.waitRecv }]
  ∧ (runSched c2init [0, 0, 0, 0, 1, 1, 0, 0, 1]).state.mailbox = []
  ∧ stepIdx (runSched c2init [0, 0, 0, 0, 1, 1, 0, 0, 1]) 0
      = runSched c2init [0, 0, 0, 0, 1, 1, 0, 0, 1]
  ∧ stepIdx (runSched c2init [0, 0, 0, 0, 1, 1, 0, 0, 1]) 1
      = runSched c2init [0, 0, 0, 0, 1, 1, 0, 0, 1] := by
  decide
